import Mathlib

/-!
# Verification of the humanoid identifier library

Shallow embedding of a small Rust library that renders and parses
human-readable, type-tagged identifiers of the form `tag_body`.

Three components are embedded, straight from the source:

* `Cb32u128` (file `cb32u128.rs`): a 128-bit value rendered in Crockford
  Base32 (without check digit) by a bit-shifting algorithm with a sentinel
  bit, and parsed by a left fold through a reverse character table.
* `Cuid2` (file `cuid2.rs`): a 128-bit value rendered in base 36 and parsed
  by a byte-length check plus the standard unsigned integer radix parser.
* `PrefixedId` (file `lib.rs`): a generic wrapper composing a compile-time
  tag string with a body codec, plus the length-byte packing of a short tag
  string into a 128-bit integer.

Machine integers (`u128`) are modelled as `Nat` with explicit `% 2 ^ 128`
where the Rust code wraps; strings are modelled as `List Char` (with UTF-8
byte lengths computed where the source uses byte lengths); `Result` mirrors
the Rust result type.
-/

set_option maxRecDepth 4096

namespace Humanoid

/-- Rust result type: `Ok` carries the value, `Err` the error. -/
inductive Result (α ε : Type) where
  | Ok (v : α)
  | Err (e : ε)
  deriving DecidableEq, Repr

/-- Rust `char::is_ascii`: the code point is at most 0x7F. -/
def char_is_ascii (c : Char) : Bool := c.toNat ≤ 0x7F

namespace Cb32u128

/-- Error type of the Crockford parser (`Cb32u128ParseError` in the source). -/
inductive ParseError where
  | InvalidDigit (c : Char)
  | UnsupportedCheckDigit (c : Char)
  deriving DecidableEq, Repr

/-- Constant `BITS = u128::BITS`. -/
def BITS : Nat := 128

/-- Constant `DIGIT_BITS = 5` (log2 of 32). -/
def DIGIT_BITS : Nat := 5

/-- Constant `REM_BITS = BITS % DIGIT_BITS = 3`. -/
def REM_BITS : Nat := BITS % DIGIT_BITS

/-- Constant `REM_SHIFT = BITS - REM_BITS = 125`. -/
def REM_SHIFT : Nat := BITS - REM_BITS

/-- Constant `DIGIT_SHIFT = BITS - DIGIT_BITS = 123`. -/
def DIGIT_SHIFT : Nat := BITS - DIGIT_BITS

/-- Constant `STOP_BIT = 1 << REM_SHIFT`. -/
def STOP_BIT : Nat := 2 ^ REM_SHIFT

/-- Rust `x <<= k` on `u128`: shift left and drop bits above bit 127. -/
def shlWrap (x k : Nat) : Nat := (x <<< k) % 2 ^ 128

/-- Bit length of a natural number below `2 ^ fuel` (an executable version
of `Nat.size`, structurally recursive so the kernel can evaluate it). -/
def bitLenLoop : Nat → Nat → Nat
  | 0, _ => 0
  | fuel + 1, n => if n = 0 then 0 else bitLenLoop fuel (n / 2) + 1

/-- Rust `u128::leading_zeros`: 128 minus the bit length. -/
def leading_zeros (x : Nat) : Nat := 128 - bitLenLoop 128 x

/-- Helper `round_to_multiple_of_digit_bits` from the `Display` impl. -/
def round_to_multiple_of_digit_bits (x : Nat) : Nat := x / DIGIT_BITS * DIGIT_BITS

/-- The table `CROCKFORD_MAPPING`: digit value to character. -/
def CROCKFORD_MAPPING : List Char :=
  ['0', '1', '2', '3', '4', '5', '6', '7', '8', '9', 'A', 'B', 'C', 'D', 'E',
   'F', 'G', 'H', 'J', 'K', 'M', 'N', 'P', 'Q', 'R', 'S', 'T', 'V', 'W', 'X',
   'Y', 'Z']

/-- Indexing `CROCKFORD_MAPPING[i]` (in the source the index is always below 32). -/
def mappingChar (i : Nat) : Char := CROCKFORD_MAPPING.getD i '0'

/-- The `while x != STOP_BIT` loop of the `Display` impl: emit the top five
bits as a digit and shift left by five, with fuel (the source loop always
terminates within 25 iterations, see `fmtLoop_pad`). -/
def fmtLoop : Nat → Nat → List Char
  | 0, _ => []
  | fuel + 1, x =>
    if x = STOP_BIT then []
    else mappingChar (x >>> DIGIT_SHIFT) :: fmtLoop fuel (shlWrap x DIGIT_BITS)

/-- The `Display` impl for `Cb32u128`: zero prints as the zero digit;
otherwise the top three bits are consumed (printed when nonzero, skipped
over together with leading zero digits when zero), a sentinel 1 bit is
planted at the bottom, and the main loop prints five bits at a time. -/
def fmt (v : Nat) : List Char :=
  if v = 0 then [mappingChar 0]
  else
    match v >>> REM_SHIFT with
    | 0 =>
      let x := shlWrap v REM_BITS ||| 1
      let x := shlWrap x (round_to_multiple_of_digit_bits (leading_zeros x))
      fmtLoop 26 x
    | i + 1 =>
      mappingChar (i + 1) :: fmtLoop 26 (shlWrap v REM_BITS ||| 1)

/-- Entries of the reverse mapping table (`CrmEntry` in the source). -/
inductive CrmEntry where
  | Valid (d : Nat)
  | CheckDigit
  | Invalid
  deriving DecidableEq, Repr

/-- The table `CROCKFORD_REVERSE_MAPPING`, as a function on characters: the
source builds a 256-entry array indexed by the ASCII code (non-ASCII input
is rejected before the table is consulted). -/
def CROCKFORD_REVERSE_MAPPING (c : Char) : CrmEntry :=
  if c = '0' ∨ c = 'O' ∨ c = 'o' then .Valid 0
  else if c = '1' ∨ c = 'I' ∨ c = 'i' ∨ c = 'L' ∨ c = 'l' then .Valid 1
  else if c = '2' then .Valid 2
  else if c = '3' then .Valid 3
  else if c = '4' then .Valid 4
  else if c = '5' then .Valid 5
  else if c = '6' then .Valid 6
  else if c = '7' then .Valid 7
  else if c = '8' then .Valid 8
  else if c = '9' then .Valid 9
  else if c = 'A' ∨ c = 'a' then .Valid 10
  else if c = 'B' ∨ c = 'b' then .Valid 11
  else if c = 'C' ∨ c = 'c' then .Valid 12
  else if c = 'D' ∨ c = 'd' then .Valid 13
  else if c = 'E' ∨ c = 'e' then .Valid 14
  else if c = 'F' ∨ c = 'f' then .Valid 15
  else if c = 'G' ∨ c = 'g' then .Valid 16
  else if c = 'H' ∨ c = 'h' then .Valid 17
  else if c = 'J' ∨ c = 'j' then .Valid 18
  else if c = 'K' ∨ c = 'k' then .Valid 19
  else if c = 'M' ∨ c = 'm' then .Valid 20
  else if c = 'N' ∨ c = 'n' then .Valid 21
  else if c = 'P' ∨ c = 'p' then .Valid 22
  else if c = 'Q' ∨ c = 'q' then .Valid 23
  else if c = 'R' ∨ c = 'r' then .Valid 24
  else if c = 'S' ∨ c = 's' then .Valid 25
  else if c = 'T' ∨ c = 't' then .Valid 26
  else if c = 'V' ∨ c = 'v' then .Valid 27
  else if c = 'W' ∨ c = 'w' then .Valid 28
  else if c = 'X' ∨ c = 'x' then .Valid 29
  else if c = 'Y' ∨ c = 'y' then .Valid 30
  else if c = 'Z' ∨ c = 'z' then .Valid 31
  else if c = '*' ∨ c = '~' ∨ c = '$' ∨ c = '=' ∨ c = 'U' ∨ c = 'u' then .CheckDigit
  else .Invalid

/-- The accumulating loop of `FromStr for Cb32u128`: reject non-ASCII input,
look the character up in the reverse table, and fold `res = (res << 5) | d`
with `u128` wrap-around. -/
def from_str_loop : List Char → Nat → Result Nat ParseError
  | [], res => .Ok res
  | c :: cs, res =>
    if ¬ char_is_ascii c then .Err (.InvalidDigit c)
    else
      match CROCKFORD_REVERSE_MAPPING c with
      | .Valid d => from_str_loop cs (shlWrap res DIGIT_BITS ||| d)
      | .CheckDigit => .Err (.UnsupportedCheckDigit c)
      | .Invalid => .Err (.InvalidDigit c)

/-- Entry point `Cb32u128::from_str`. -/
def from_str (s : List Char) : Result Nat ParseError := from_str_loop s 0

/-! ### Arithmetic facts about the rendering loop -/

theorem lor_low {d k : Nat} (a : Nat) (hd : d < 2 ^ k) :
    a * 2 ^ k ||| d = a * 2 ^ k + d := by
  rw [Nat.mul_comm a (2 ^ k), ← Nat.mul_add_lt_is_or hd a]

theorem shlWrap_eq (x k : Nat) : shlWrap x k = x * 2 ^ k % 2 ^ 128 := by
  simp [shlWrap, Nat.shiftLeft_eq]

theorem shlWrap_eq_of_lt {x k : Nat} (h : x * 2 ^ k < 2 ^ 128) :
    shlWrap x k = x * 2 ^ k := by
  rw [shlWrap_eq]; exact Nat.mod_eq_of_lt h

theorem bitLenLoop_zero (fuel : Nat) : bitLenLoop fuel 0 = 0 := by
  cases fuel <;> rfl

theorem bitLenLoop_spec :
    ∀ fuel n, n < 2 ^ fuel → n ≠ 0 →
      1 ≤ bitLenLoop fuel n ∧
        2 ^ (bitLenLoop fuel n - 1) ≤ n ∧ n < 2 ^ bitLenLoop fuel n := by
  intro fuel
  induction fuel with
  | zero => intro n hn h0; omega
  | succ f ih =>
    intro n hn h0
    rw [bitLenLoop, if_neg h0]
    by_cases h2 : n / 2 = 0
    · have hn1 : n = 1 := by omega
      subst hn1
      rw [show (1 : Nat) / 2 = 0 from rfl, bitLenLoop_zero]
      norm_num
    · have hhalf : n / 2 < 2 ^ f := by
        have : 2 ^ (f + 1) = 2 * 2 ^ f := by rw [Nat.pow_succ]; ring
        omega
      obtain ⟨h1, hlo, hhi⟩ := ih (n / 2) hhalf h2
      set L := bitLenLoop f (n / 2) with hL
      have hpow : 2 ^ L = 2 * 2 ^ (L - 1) := by
        conv_lhs => rw [show L = (L - 1) + 1 by omega]
        rw [Nat.pow_succ]; ring
      have hpow2 : 2 ^ (L + 1) = 2 * 2 ^ L := by rw [Nat.pow_succ]; ring
      refine ⟨by omega, ?_, ?_⟩
      · simp only [Nat.add_sub_cancel]
        omega
      · omega

/-! ### Digit-list view of the rendering algorithm

The sentinel-bit loop of the `Display` impl is characterised against
`padDigits k u`: the base-32 digits of `u`, most significant first, padded
with leading zeros to exactly `k` digits. -/

/-- Base-32 digits of `u`, most significant first, padded to `k` digits. -/
def padDigits : Nat → Nat → List Nat
  | 0, _ => []
  | k + 1, u => u / 32 ^ k :: padDigits k (u % 32 ^ k)

theorem padDigits_length : ∀ k u, (padDigits k u).length = k
  | 0, _ => rfl
  | k + 1, u => by simp [padDigits, padDigits_length k]

theorem padDigits_mem_lt :
    ∀ k u, u < 32 ^ k → ∀ d ∈ padDigits k u, d < 32 := by
  intro k
  induction k with
  | zero => simp [padDigits]
  | succ j ih =>
    intro u hu d hd
    rw [padDigits] at hd
    have h32 : 0 < 32 ^ j := Nat.pos_pow_of_pos j (by norm_num)
    rcases List.mem_cons.1 hd with h | h
    · subst h
      have : u < 32 ^ j * 32 := by
        rw [← Nat.pow_succ]; exact hu
      exact Nat.div_lt_of_lt_mul (by omega)
    · exact ih (u % 32 ^ j) (Nat.mod_lt u h32) d h

theorem pow32_eq (k : Nat) : (32 : Nat) ^ k = 2 ^ (5 * k) := by
  rw [show (32 : Nat) = 2 ^ 5 from rfl, ← Nat.pow_mul]

/-- Main loop lemma: started on a value carrying payload `u` in its top
`5 * k` bits and the sentinel bit right below the payload, the loop emits
exactly the `k` padded base-32 digits of `u` and stops. -/
theorem fmtLoop_pad :
    ∀ k m u fuel, m + 5 * k = 125 → u < 32 ^ k → k ≤ fuel →
      fmtLoop fuel (u * 2 ^ (m + 3) + 2 ^ m) = (padDigits k u).map mappingChar := by
  intro k
  induction k with
  | zero =>
    intro m u fuel hm hu _
    have hu0 : u = 0 := by omega
    have hm0 : m = 125 := by omega
    subst hu0; subst hm0
    have hstop : (0 : Nat) * 2 ^ (125 + 3) + 2 ^ 125 = STOP_BIT := by norm_num [STOP_BIT, REM_SHIFT, BITS, REM_BITS, DIGIT_BITS]
    rw [hstop]
    cases fuel with
    | zero => rfl
    | succ f => simp [fmtLoop, padDigits]
  | succ k ih =>
    intro m u fuel hm hu hfuel
    obtain ⟨f, rfl⟩ : ∃ f, fuel = f + 1 := ⟨fuel - 1, by omega⟩
    set d := u / 32 ^ k with hd_def
    set r := u % 32 ^ k with hr_def
    have h32k : 0 < (32 : Nat) ^ k := Nat.pos_pow_of_pos k (by norm_num)
    have hur : u = d * 32 ^ k + r := by
      rw [hd_def, hr_def, Nat.mul_comm]; exact (Nat.div_add_mod u (32 ^ k)).symm
    have hd32 : d < 32 := by
      rw [hd_def]
      apply Nat.div_lt_of_lt_mul
      rw [← Nat.pow_succ]; exact hu
    have hr32 : r < 32 ^ k := Nat.mod_lt u h32k
    have hm120 : m + 5 * k = 120 := by omega
    have hpow123 : (32 : Nat) ^ k * 2 ^ (m + 3) = 2 ^ 123 := by
      rw [pow32_eq, ← Nat.pow_add]
      congr 1; omega
    have hxd : u * 2 ^ (m + 3) + 2 ^ m
        = d * 2 ^ 123 + (r * 2 ^ (m + 3) + 2 ^ m) := by
      rw [hur, Nat.add_mul, Nat.mul_assoc, hpow123]
      ring
    have hR : r * 2 ^ (m + 3) + 2 ^ m < 2 ^ 123 := by
      have h1 : (r + 1) * 2 ^ (m + 3) ≤ 32 ^ k * 2 ^ (m + 3) :=
        Nat.mul_le_mul_right _ (by omega)
      rw [hpow123] at h1
      have h2 : (r + 1) * 2 ^ (m + 3) = r * 2 ^ (m + 3) + 2 ^ (m + 3) := by ring
      have h3 : (2 : Nat) ^ m < 2 ^ (m + 3) :=
        Nat.pow_lt_pow_right (by norm_num) (by omega)
      omega
    have hm1_123 : (2 : Nat) ^ (m + 1) ∣ 2 ^ 123 := pow_dvd_pow 2 (by omega)
    have hm1_m3 : (2 : Nat) ^ (m + 1) ∣ 2 ^ (m + 3) := pow_dvd_pow 2 (by omega)
    have hstop125 : STOP_BIT = 2 ^ 125 := by norm_num [STOP_BIT, REM_SHIFT, BITS, REM_BITS, DIGIT_BITS]
    have hne : u * 2 ^ (m + 3) + 2 ^ m ≠ STOP_BIT := by
      intro hcontra
      obtain ⟨q, hq⟩ : (2 : Nat) ^ (m + 1) ∣ d * 2 ^ 123 + r * 2 ^ (m + 3) :=
        dvd_add (hm1_123.mul_left d) (hm1_m3.mul_left r)
      obtain ⟨p, hp⟩ : (2 : Nat) ^ (m + 1) ∣ 2 ^ 125 := pow_dvd_pow 2 (by omega)
      have hxq : u * 2 ^ (m + 3) + 2 ^ m = 2 ^ (m + 1) * q + 2 ^ m := by
        rw [hxd, ← Nat.add_assoc, hq]
      have hmodL : (u * 2 ^ (m + 3) + 2 ^ m) % 2 ^ (m + 1) = 2 ^ m := by
        rw [hxq, Nat.mul_add_mod]
        exact Nat.mod_eq_of_lt (Nat.pow_lt_pow_right (by norm_num) (by omega))
      have hmodR : STOP_BIT % 2 ^ (m + 1) = 0 := by
        rw [hstop125, hp, Nat.mul_mod_right]
      rw [hcontra, hmodR] at hmodL
      have := Nat.two_pow_pos m
      omega
    have hshift : (u * 2 ^ (m + 3) + 2 ^ m) >>> DIGIT_SHIFT = d := by
      have h123 : DIGIT_SHIFT = 123 := by norm_num [DIGIT_SHIFT, BITS, DIGIT_BITS]
      rw [h123, Nat.shiftRight_eq_div_pow, hxd, Nat.mul_comm d,
        Nat.mul_add_div (Nat.two_pow_pos 123), Nat.div_eq_of_lt hR]
      omega
    have hmain : (d * 2 ^ 123 + (r * 2 ^ (m + 3) + 2 ^ m)) * 2 ^ 5
        = 2 ^ 128 * d + (r * 2 ^ (m + 8) + 2 ^ (m + 5)) := by ring
    have hB : r * 2 ^ (m + 8) + 2 ^ (m + 5) < 2 ^ 128 := by
      have h1 : r * 2 ^ (m + 8) + 2 ^ (m + 5) = (r * 2 ^ (m + 3) + 2 ^ m) * 2 ^ 5 := by
        ring
      have h2 : (r * 2 ^ (m + 3) + 2 ^ m) * 2 ^ 5 < 2 ^ 123 * 2 ^ 5 :=
        (Nat.mul_lt_mul_right (Nat.two_pow_pos 5)).mpr hR
      have h3 : (2 : Nat) ^ 123 * 2 ^ 5 = 2 ^ 128 := by norm_num
      omega
    have hshl : shlWrap (u * 2 ^ (m + 3) + 2 ^ m) DIGIT_BITS
        = r * 2 ^ (m + 5 + 3) + 2 ^ (m + 5) := by
      have h5 : DIGIT_BITS = 5 := rfl
      rw [h5, shlWrap_eq, hxd, hmain, Nat.mul_add_mod, Nat.mod_eq_of_lt hB]
    rw [fmtLoop, if_neg hne, hshift, hshl,
      ih (m + 5) r f (by omega) hr32 (by omega)]
    rw [padDigits, ← hd_def, ← hr_def, List.map_cons]


/-- Unfolding `fmt` in the nonzero-head branch. -/
theorem fmt_big {v : Nat} (hlo : 2 ^ 125 ≤ v) (hhi : v < 2 ^ 128) :
    fmt v = (padDigits 26 v).map mappingChar := by
  have hv0 : v ≠ 0 := by have := Nat.two_pow_pos 125; omega
  have hrs : REM_SHIFT = 125 := by norm_num [REM_SHIFT, BITS, REM_BITS, DIGIT_BITS]
  have hhead : v >>> REM_SHIFT = v / 2 ^ 125 := by
    rw [hrs, Nat.shiftRight_eq_div_pow]
  have hpos : 1 ≤ v / 2 ^ 125 := (Nat.one_le_div_iff (Nat.two_pow_pos 125)).mpr hlo
  obtain ⟨i, hi⟩ : ∃ i, v >>> REM_SHIFT = i + 1 := ⟨v >>> REM_SHIFT - 1, by omega⟩
  have hfmt : fmt v = mappingChar (i + 1) :: fmtLoop 26 (shlWrap v REM_BITS ||| 1) := by
    unfold fmt
    rw [if_neg hv0, hi]
  have hr : v % 2 ^ 125 < 2 ^ 125 := Nat.mod_lt v (Nat.two_pow_pos 125)
  have hx : shlWrap v REM_BITS ||| 1 = (v % 2 ^ 125) * 2 ^ (0 + 3) + 2 ^ 0 := by
    have hrem : REM_BITS = 3 := by norm_num [REM_BITS, BITS, DIGIT_BITS]
    rw [hrem, shlWrap_eq,
      show (2 : Nat) ^ 128 = 2 ^ 125 * 2 ^ 3 from by norm_num,
      Nat.mul_mod_mul_right]
    exact lor_low (v % 2 ^ 125) (by norm_num)
  have h3225 : (32 : Nat) ^ 25 = 2 ^ 125 := by
    rw [pow32_eq]
  have hr32 : v % 2 ^ 125 < 32 ^ 25 := by rw [h3225]; exact hr
  have hsplit : padDigits 26 v = v / 2 ^ 125 :: padDigits 25 (v % 2 ^ 125) := by
    rw [show (26 : Nat) = 25 + 1 from rfl, padDigits, h3225]
  rw [hfmt, hx, fmtLoop_pad 25 0 (v % 2 ^ 125) 26 (by norm_num) hr32 (by norm_num),
    hsplit, List.map_cons, ← hhead, hi]

/-- Unfolding `fmt` in the zero-head branch: the string is the padded digit
string at the canonical digit count. -/
theorem fmt_small {v : Nat} (hv0 : v ≠ 0) (hhi : v < 2 ^ 125) :
    ∃ k, 1 ≤ k ∧ k ≤ 25 ∧ 32 ^ (k - 1) ≤ v ∧ v < 32 ^ k ∧
      fmt v = (padDigits k v).map mappingChar := by
  have hv1 : 1 ≤ v := Nat.one_le_iff_ne_zero.mpr hv0
  have hrs : REM_SHIFT = 125 := by norm_num [REM_SHIFT, BITS, REM_BITS, DIGIT_BITS]
  have hhead0 : v >>> REM_SHIFT = 0 := by
    rw [hrs, Nat.shiftRight_eq_div_pow]
    exact Nat.div_eq_of_lt hhi
  have hrem : REM_BITS = 3 := by norm_num [REM_BITS, BITS, DIGIT_BITS]
  have h128 : (2 : Nat) ^ 128 = 8 * 2 ^ 125 := by norm_num
  have hb : v * 2 ^ 3 < 2 ^ 128 := by
    have : v * 2 ^ 3 < 2 ^ 125 * 2 ^ 3 := (Nat.mul_lt_mul_right (by norm_num)).mpr hhi
    omega
  have hx0 : shlWrap v REM_BITS ||| 1 = 8 * v + 1 := by
    rw [hrem, shlWrap_eq_of_lt hb, lor_low v (by norm_num)]
    ring
  have hx0lt : 8 * v + 1 < 2 ^ 128 := by omega
  obtain ⟨hL1, hLlo, hLhi⟩ := bitLenLoop_spec 128 (8 * v + 1) hx0lt (by omega)
  set L := bitLenLoop 128 (8 * v + 1) with hLdef
  have hL4 : 4 ≤ L := by
    by_contra hcon
    push_neg at hcon
    have : (2 : Nat) ^ L ≤ 2 ^ 3 := Nat.pow_le_pow_right (by norm_num) (by omega)
    omega
  have hL128 : L ≤ 128 := by
    by_contra hcon
    push_neg at hcon
    have : (2 : Nat) ^ 128 ≤ 2 ^ (L - 1) := Nat.pow_le_pow_right (by norm_num) (by omega)
    omega
  set t := (128 - L) / 5 with htdef
  have ht25 : t ≤ 24 := by omega
  have h5t1 : 5 * t ≤ 128 - L := by omega
  have h5t2 : 128 - L < 5 * t + 5 := by omega
  have hshift_amt :
      round_to_multiple_of_digit_bits (leading_zeros (8 * v + 1)) = 5 * t := by
    rw [round_to_multiple_of_digit_bits, leading_zeros, ← hLdef]
    norm_num [DIGIT_BITS]
    omega
  have hnowrap : (8 * v + 1) * 2 ^ (5 * t) < 2 ^ 128 := by
    have h1 : (8 * v + 1) * 2 ^ (5 * t) < 2 ^ L * 2 ^ (5 * t) :=
      (Nat.mul_lt_mul_right (Nat.two_pow_pos _)).mpr hLhi
    have h2 : (2 : Nat) ^ L * 2 ^ (5 * t) = 2 ^ (L + 5 * t) := by rw [← Nat.pow_add]
    have h3 : (2 : Nat) ^ (L + 5 * t) ≤ 2 ^ 128 := Nat.pow_le_pow_right (by norm_num) (by omega)
    omega
  have hxshape : (8 * v + 1) * 2 ^ (5 * t) = v * 2 ^ (5 * t + 3) + 2 ^ (5 * t) := by
    ring
  have hpowL3 : (2 : Nat) ^ L = 8 * 2 ^ (L - 3) := by
    conv_lhs => rw [show L = (L - 3) + 3 by omega]
    rw [Nat.pow_add]
    ring
  have hpowL4 : (2 : Nat) ^ (L - 1) = 8 * 2 ^ (L - 4) := by
    rw [show L - 1 = (L - 4) + 3 by omega, Nat.pow_add]
    ring
  have hvlt : v < 2 ^ (L - 3) := by omega
  have hvge : 2 ^ (L - 4) ≤ v := by omega
  have h32k : (32 : Nat) ^ (25 - t) = 2 ^ (125 - 5 * t) := by
    rw [pow32_eq]
    congr 1
    omega
  have h32k1 : (32 : Nat) ^ (25 - t - 1) = 2 ^ (120 - 5 * t) := by
    rw [pow32_eq]
    congr 1
    omega
  have hupper : v < 32 ^ (25 - t) := by
    rw [h32k]
    calc v < 2 ^ (L - 3) := hvlt
      _ ≤ 2 ^ (125 - 5 * t) := Nat.pow_le_pow_right (by norm_num) (by omega)
  have hlower : 32 ^ (25 - t - 1) ≤ v := by
    rw [h32k1]
    calc (2 : Nat) ^ (120 - 5 * t) ≤ 2 ^ (L - 4) := Nat.pow_le_pow_right (by norm_num) (by omega)
      _ ≤ v := hvge
  have hfmt : fmt v = fmtLoop 26 (shlWrap (shlWrap v REM_BITS ||| 1)
      (round_to_multiple_of_digit_bits (leading_zeros (shlWrap v REM_BITS ||| 1)))) := by
    unfold fmt
    rw [if_neg hv0, hhead0]
  refine ⟨25 - t, by omega, by omega, hlower, hupper, ?_⟩
  rw [hfmt, hx0, hshift_amt, shlWrap_eq_of_lt hnowrap, hxshape,
    fmtLoop_pad (25 - t) (5 * t) v 26 (by omega) hupper (by omega)]

/-- Combined characterisation of the rendering: every nonzero value below
`2 ^ 128` renders as the map of its canonical-length padded digit list. -/
theorem fmt_pad {v : Nat} (hv0 : v ≠ 0) (hv : v < 2 ^ 128) :
    ∃ k, 1 ≤ k ∧ k ≤ 26 ∧ 32 ^ (k - 1) ≤ v ∧ v < 32 ^ k ∧
      fmt v = (padDigits k v).map mappingChar := by
  by_cases hbig : 2 ^ 125 ≤ v
  · refine ⟨26, by norm_num, by norm_num, ?_, ?_, fmt_big hbig hv⟩
    · rw [show (26 : Nat) - 1 = 25 from rfl, pow32_eq]
      exact hbig
    · have : (32 : Nat) ^ 26 = 2 ^ 130 := by rw [pow32_eq]
      have h2 : (2 : Nat) ^ 128 ≤ 2 ^ 130 := Nat.pow_le_pow_right (by norm_num) (by omega)
      omega
  · push_neg at hbig
    obtain ⟨k, h1, h2, h3, h4, h5⟩ := fmt_small hv0 hbig
    exact ⟨k, h1, by omega, h3, h4, h5⟩

/-! ### The parse loop on rendered digit strings -/

/-- Every digit below 32 maps to an ASCII character (a primary Crockford
digit) that the reverse table sends back to the same digit value. -/
theorem crm_mapping_valid : ∀ d, d < 32 →
    CROCKFORD_REVERSE_MAPPING (mappingChar d) = .Valid d ∧
      char_is_ascii (mappingChar d) = true := by decide

/-- Running the parse loop over a padded digit string folds the digits back
onto the accumulator (no wrap-around happens while the total stays below
`2 ^ 128`). -/
theorem from_str_loop_pad :
    ∀ k u a, u < 32 ^ k → a * 32 ^ k + u < 2 ^ 128 →
      from_str_loop ((padDigits k u).map mappingChar) a = .Ok (a * 32 ^ k + u) := by
  intro k
  induction k with
  | zero =>
    intro u a hu _
    have hu0 : u = 0 := by omega
    subst hu0
    simp [padDigits, from_str_loop]
  | succ k ih =>
    intro u a hu hbound
    set d := u / 32 ^ k with hd_def
    set r := u % 32 ^ k with hr_def
    have h32k : 0 < (32 : Nat) ^ k := Nat.pos_pow_of_pos k (by norm_num)
    have hur : u = d * 32 ^ k + r := by
      rw [hd_def, hr_def, Nat.mul_comm]
      exact (Nat.div_add_mod u (32 ^ k)).symm
    have hd32 : d < 32 := by
      rw [hd_def]
      apply Nat.div_lt_of_lt_mul
      rw [← Nat.pow_succ]
      exact hu
    have hr32 : r < 32 ^ k := Nat.mod_lt u h32k
    have hsucc : (32 : Nat) ^ (k + 1) = 32 ^ k * 32 := by rw [Nat.pow_succ]
    have hbound2 : (a * 32 + d) * 32 ^ k + r < 2 ^ 128 := by
      have : (a * 32 + d) * 32 ^ k + r = a * 32 ^ (k + 1) + u := by
        rw [hur, hsucc]
        ring
      omega
    have ha32 : a * 32 < 2 ^ 128 := by
      have h1 : (32 : Nat) ≤ 32 ^ (k + 1) := by
        calc (32 : Nat) = 32 ^ 1 := (pow_one 32).symm
          _ ≤ 32 ^ (k + 1) := Nat.pow_le_pow_right (by norm_num) (by omega)
      have h2 : a * 32 ≤ a * 32 ^ (k + 1) := Nat.mul_le_mul_left a h1
      omega
    obtain ⟨hvalid, hascii⟩ := crm_mapping_valid d hd32
    have hshl : shlWrap a DIGIT_BITS ||| d = a * 32 + d := by
      have h5 : DIGIT_BITS = 5 := rfl
      have h25 : (2 : Nat) ^ 5 = 32 := by norm_num
      rw [h5, shlWrap_eq_of_lt (by rw [h25]; exact ha32), h25]
      rw [show a * 32 ||| d = a * 2 ^ 5 ||| d from by norm_num,
        lor_low a (by omega)]
      norm_num
    rw [padDigits, ← hd_def, ← hr_def, List.map_cons, from_str_loop,
      if_neg (by rw [hascii]; simp), hvalid]
    show from_str_loop (List.map mappingChar (padDigits k r)) (shlWrap a DIGIT_BITS ||| d)
      = Result.Ok (a * 32 ^ (k + 1) + u)
    rw [hshl, ih r (a * 32 + d) hr32 hbound2]
    have : (a * 32 + d) * 32 ^ k + r = a * 32 ^ (k + 1) + u := by
      rw [hur, hsucc]
      ring
    rw [this]

/-- C1. Crockford round-trip: for every 128-bit value, parsing the rendered
form gives back the value. -/
theorem c1_crockford_round_trip (v : Nat) (hv : v < 2 ^ 128) :
    from_str (fmt v) = .Ok v := by
  by_cases hv0 : v = 0
  · subst hv0
    decide
  · obtain ⟨k, hk1, hk26, hlo, hhi, hfmt⟩ := fmt_pad hv0 hv
    rw [from_str, hfmt, from_str_loop_pad k v 0 hhi (by simpa using hv)]
    norm_num

/-- Witness for C1 at the concrete value 992 (rendered as Z0). -/
theorem c1_crockford_round_trip_witness :
    (992 : Nat) < 2 ^ 128 ∧ from_str (fmt 992) = .Ok 992 :=
  ⟨by decide, c1_crockford_round_trip 992 (by decide)⟩

/-! ### Canonical output language (claim C3) -/

/-- The regular language of canonical Crockford output: either the single
digit 0, or a first character among the 31 nonzero digit characters
followed by at most 25 further digit characters. -/
def crockfordCanonical (s : List Char) : Prop :=
  s = ['0'] ∨
    ∃ c rest, s = c :: rest ∧ c ∈ CROCKFORD_MAPPING.drop 1 ∧
      rest.length ≤ 25 ∧ ∀ e ∈ rest, e ∈ CROCKFORD_MAPPING

theorem mappingChar_mem : ∀ d, d < 32 → mappingChar d ∈ CROCKFORD_MAPPING := by
  decide

theorem mappingChar_mem_drop :
    ∀ d, d < 32 → 1 ≤ d → mappingChar d ∈ CROCKFORD_MAPPING.drop 1 := by
  decide

/-- C3. Crockford canonical output: every rendered string lies in the
language 0 or nonzero-digit followed by up to 25 digits, and the four
concrete renderings from the specification hold. -/
theorem c3_crockford_canonical (v : Nat) (hv : v < 2 ^ 128) :
    crockfordCanonical (fmt v) ∧
      fmt 0 = ['0'] ∧ fmt 32 = ['1', '0'] ∧ fmt 992 = ['Z', '0'] ∧
      fmt (2 ^ 128 - 1) =
        ['7', 'Z', 'Z', 'Z', 'Z', 'Z', 'Z', 'Z', 'Z', 'Z', 'Z', 'Z', 'Z',
         'Z', 'Z', 'Z', 'Z', 'Z', 'Z', 'Z', 'Z', 'Z', 'Z', 'Z', 'Z', 'Z'] := by
  refine ⟨?_, by decide, by decide, by decide, by decide⟩
  by_cases hv0 : v = 0
  · subst hv0
    left
    decide
  · right
    obtain ⟨k, hk1, hk26, hlo, hhi, hfmt⟩ := fmt_pad hv0 hv
    obtain ⟨j, rfl⟩ : ∃ j, k = j + 1 := ⟨k - 1, by omega⟩
    rw [hfmt, padDigits, List.map_cons]
    have hp : 0 < (32 : Nat) ^ j := pow_pos (by norm_num) j
    refine ⟨mappingChar (v / 32 ^ j), _, rfl, ?_, ?_, ?_⟩
    · have hj : (32 : Nat) ^ j ≤ v := by simpa using hlo
      have h1 : 1 ≤ v / 32 ^ j := (Nat.one_le_div_iff hp).mpr hj
      have h2 : v / 32 ^ j < 32 := by
        apply Nat.div_lt_of_lt_mul
        rw [← Nat.pow_succ]
        exact hhi
      exact mappingChar_mem_drop _ h2 h1
    · rw [List.length_map, padDigits_length]
      omega
    · intro e he
      obtain ⟨dd, hdd, rfl⟩ := List.mem_map.1 he
      exact mappingChar_mem dd
        (padDigits_mem_lt j (v % 32 ^ j) (Nat.mod_lt v hp) dd hdd)

/-- Witness for C3 at the concrete value 992. -/
theorem c3_crockford_canonical_witness :
    (992 : Nat) < 2 ^ 128 ∧ crockfordCanonical (fmt 992) :=
  ⟨by decide, (c3_crockford_canonical 992 (by decide)).1⟩

/-! ### Value semantics of the parser (claim C9) -/

/-- Digit value assigned by the reverse table (0 for non-digit characters;
only consulted on digit characters). -/
def crmDigit (c : Char) : Nat :=
  match CROCKFORD_REVERSE_MAPPING c with
  | .Valid d => d
  | _ => 0

/-- Characters the parser folds as digits: ASCII (mirroring the guard in
the parser) and mapped to a `Valid` entry by the reverse table. -/
def isValidDigitChar (c : Char) : Bool :=
  char_is_ascii c &&
    match CROCKFORD_REVERSE_MAPPING c with
    | .Valid _ => true
    | _ => false

/-- Unreduced base-32 value of a digit string, folded most significant
digit first. -/
def b32val (s : List Char) : Nat := s.foldl (fun a c => a * 32 + crmDigit c) 0

/-- A sanity bound on the reverse table: every digit value it produces is
below 32. -/
def crmOk (e : CrmEntry) : Bool :=
  match e with
  | .Valid d => decide (d < 32)
  | _ => true

set_option maxHeartbeats 1000000 in
theorem crmOk_all (c : Char) : crmOk (CROCKFORD_REVERSE_MAPPING c) = true := by
  unfold CROCKFORD_REVERSE_MAPPING
  repeat rw [apply_ite crmOk]
  simp [crmOk]

theorem crm_valid_lt {c : Char} {d : Nat}
    (h : CROCKFORD_REVERSE_MAPPING c = .Valid d) : d < 32 := by
  have h2 := crmOk_all c
  rw [h] at h2
  simpa [crmOk] using h2

theorem lor_low32 (x : Nat) {d : Nat} (hd : d < 32) : x * 32 ||| d = x * 32 + d := by
  have h := lor_low (d := d) (k := 5) x (by omega)
  norm_num at h
  exact h

theorem mul32_mod (a : Nat) : a * 32 % 2 ^ 128 = a % 2 ^ 123 * 32 := by
  rw [show (2 : Nat) ^ 128 = 2 ^ 123 * 32 from by norm_num, Nat.mul_mod_mul_right]

/-- The fold of the parser only depends on the accumulator modulo `2 ^ 128`. -/
theorem b32fold_mod (l : List Char) :
    ∀ a, (l.foldl (fun x c => x * 32 + crmDigit c) (a % 2 ^ 128)) % 2 ^ 128
      = (l.foldl (fun x c => x * 32 + crmDigit c) a) % 2 ^ 128 := by
  induction l with
  | nil =>
    intro a
    simp [Nat.mod_mod_of_dvd]
  | cons c l ih =>
    intro a
    simp only [List.foldl_cons]
    have hx : (a % 2 ^ 128 * 32 + crmDigit c) % 2 ^ 128
        = (a * 32 + crmDigit c) % 2 ^ 128 :=
      ((Nat.mod_modEq a (2 ^ 128)).mul_right 32).add_right _
    calc (l.foldl (fun x c => x * 32 + crmDigit c) (a % 2 ^ 128 * 32 + crmDigit c)) % 2 ^ 128
        = (l.foldl (fun x c => x * 32 + crmDigit c)
            ((a % 2 ^ 128 * 32 + crmDigit c) % 2 ^ 128)) % 2 ^ 128 := (ih _).symm
      _ = (l.foldl (fun x c => x * 32 + crmDigit c)
            ((a * 32 + crmDigit c) % 2 ^ 128)) % 2 ^ 128 := by rw [hx]
      _ = (l.foldl (fun x c => x * 32 + crmDigit c) (a * 32 + crmDigit c)) % 2 ^ 128 := ih _

/-- On a string of valid digit characters the parse loop computes the fold
reduced modulo `2 ^ 128`. -/
theorem from_str_loop_valid (l : List Char) :
    ∀ a, (∀ c ∈ l, isValidDigitChar c = true) → a < 2 ^ 128 →
      from_str_loop l a
        = .Ok ((l.foldl (fun x c => x * 32 + crmDigit c) a) % 2 ^ 128) := by
  induction l with
  | nil =>
    intro a _ ha
    simp only [from_str_loop, List.foldl_nil]
    rw [Nat.mod_eq_of_lt ha]
  | cons c l ih =>
    intro a hall ha
    have hc := hall c (List.mem_cons_self c l)
    rw [isValidDigitChar, Bool.and_eq_true] at hc
    have hascii : char_is_ascii c = true := hc.1
    obtain ⟨d, hd⟩ : ∃ d, CROCKFORD_REVERSE_MAPPING c = .Valid d := by
      rcases hmatch : CROCKFORD_REVERSE_MAPPING c with d | _ | _
      · exact ⟨d, rfl⟩
      · rw [hmatch] at hc
        simp at hc
      · rw [hmatch] at hc
        simp at hc
    have hd32 : d < 32 := crm_valid_lt hd
    have hcd : crmDigit c = d := by rw [crmDigit, hd]
    have hmod123 : a % 2 ^ 123 < 2 ^ 123 := Nat.mod_lt a (Nat.two_pow_pos 123)
    have hsmall : a % 2 ^ 123 * 32 + d < 2 ^ 128 := by
      have h2 : (a % 2 ^ 123 + 1) * 32 ≤ 2 ^ 123 * 32 :=
        Nat.mul_le_mul_right _ (by omega)
      have h3 : (2 : Nat) ^ 123 * 32 = 2 ^ 128 := by norm_num
      have h4 : (a % 2 ^ 123 + 1) * 32 = a % 2 ^ 123 * 32 + 32 := by ring
      omega
    have hstep : shlWrap a DIGIT_BITS ||| d = a % 2 ^ 123 * 32 + d := by
      rw [show DIGIT_BITS = 5 from rfl, shlWrap_eq,
        show (2 : Nat) ^ 5 = 32 from by norm_num, mul32_mod, lor_low32 _ hd32]
    have hcong : (a % 2 ^ 123 * 32 + d) % 2 ^ 128 = (a * 32 + d) % 2 ^ 128 := by
      conv_rhs => rw [Nat.add_mod, mul32_mod]
      conv_lhs => rw [Nat.add_mod, Nat.mod_eq_of_lt (by omega : a % 2 ^ 123 * 32 < 2 ^ 128)]
    rw [from_str_loop, if_neg (by rw [hascii]; simp), hd]
    show from_str_loop l (shlWrap a DIGIT_BITS ||| d) = _
    rw [hstep, ih _ (fun e he => hall e (List.mem_cons_of_mem _ he)) hsmall,
      List.foldl_cons, hcd]
    congr 1
    calc (l.foldl (fun x c => x * 32 + crmDigit c) (a % 2 ^ 123 * 32 + d)) % 2 ^ 128
        = (l.foldl (fun x c => x * 32 + crmDigit c)
            ((a % 2 ^ 123 * 32 + d) % 2 ^ 128)) % 2 ^ 128 := by
          rw [Nat.mod_eq_of_lt hsmall]
      _ = (l.foldl (fun x c => x * 32 + crmDigit c)
            ((a * 32 + d) % 2 ^ 128)) % 2 ^ 128 := by rw [hcong]
      _ = (l.foldl (fun x c => x * 32 + crmDigit c) (a * 32 + d)) % 2 ^ 128 :=
          b32fold_mod l _

/-- C9. Crockford parse value semantics: on a string of valid digit
characters the parser folds left to right, producing the base-32 value of
the string reduced modulo `2 ^ 128`; in particular the empty string parses
to 0 and over-long inputs wrap silently instead of erroring. -/
theorem c9_crockford_parse_fold (l : List Char)
    (h : ∀ c ∈ l, isValidDigitChar c = true) :
    from_str l = .Ok (b32val l % 2 ^ 128) := by
  rw [from_str, b32val]
  exact from_str_loop_valid l 0 h (Nat.two_pow_pos 128)

/-- Witness for C9 on a 27-digit input (1 followed by 26 zero digits),
whose base-32 value is 2 to the power 130 and which parses, wrapped, to 0. -/
theorem c9_crockford_parse_fold_witness :
    (∀ c ∈ ['1', '0', '0', '0', '0', '0', '0', '0', '0', '0', '0', '0', '0',
      '0', '0', '0', '0', '0', '0', '0', '0', '0', '0', '0', '0', '0', '0'],
        isValidDigitChar c = true) ∧
    from_str ['1', '0', '0', '0', '0', '0', '0', '0', '0', '0', '0', '0', '0',
      '0', '0', '0', '0', '0', '0', '0', '0', '0', '0', '0', '0', '0', '0']
      = .Ok (b32val ['1', '0', '0', '0', '0', '0', '0', '0', '0', '0', '0',
        '0', '0', '0', '0', '0', '0', '0', '0', '0', '0', '0', '0', '0', '0',
        '0', '0'] % 2 ^ 128) :=
  ⟨by decide, c9_crockford_parse_fold _ (by decide)⟩

/-! ### Character classification of the parser (claim C10) -/

/-- The 60 characters the reverse table accepts as digits (primary digits,
lowercase forms, and the O/I/L aliases in both cases). -/
def crockfordValidChars : List Char :=
  ['0', 'O', 'o', '1', 'I', 'i', 'L', 'l', '2', '3', '4', '5', '6', '7', '8',
   '9', 'A', 'a', 'B', 'b', 'C', 'c', 'D', 'd', 'E', 'e', 'F', 'f', 'G', 'g',
   'H', 'h', 'J', 'j', 'K', 'k', 'M', 'm', 'N', 'n', 'P', 'p', 'Q', 'q', 'R',
   'r', 'S', 's', 'T', 't', 'V', 'v', 'W', 'w', 'X', 'x', 'Y', 'y', 'Z', 'z']

/-- The six characters of the Crockford check-digit alphabet. -/
def crockfordCheckChars : List Char := ['*', '~', '$', '=', 'U', 'u']

/-- Characters in neither list map to `Invalid` in the reverse table. -/
theorem crm_invalid_of_not_mem {c : Char} (hv : c ∉ crockfordValidChars)
    (hc : c ∉ crockfordCheckChars) : CROCKFORD_REVERSE_MAPPING c = .Invalid := by
  unfold CROCKFORD_REVERSE_MAPPING
  rw [
    if_neg (by rintro (rfl | rfl | rfl) <;> exact hv (by decide)),
    if_neg (by rintro (rfl | rfl | rfl | rfl | rfl) <;> exact hv (by decide)),
    if_neg (by rintro rfl; exact hv (by decide)),
    if_neg (by rintro rfl; exact hv (by decide)),
    if_neg (by rintro rfl; exact hv (by decide)),
    if_neg (by rintro rfl; exact hv (by decide)),
    if_neg (by rintro rfl; exact hv (by decide)),
    if_neg (by rintro rfl; exact hv (by decide)),
    if_neg (by rintro rfl; exact hv (by decide)),
    if_neg (by rintro rfl; exact hv (by decide)),
    if_neg (by rintro (rfl | rfl) <;> exact hv (by decide)),
    if_neg (by rintro (rfl | rfl) <;> exact hv (by decide)),
    if_neg (by rintro (rfl | rfl) <;> exact hv (by decide)),
    if_neg (by rintro (rfl | rfl) <;> exact hv (by decide)),
    if_neg (by rintro (rfl | rfl) <;> exact hv (by decide)),
    if_neg (by rintro (rfl | rfl) <;> exact hv (by decide)),
    if_neg (by rintro (rfl | rfl) <;> exact hv (by decide)),
    if_neg (by rintro (rfl | rfl) <;> exact hv (by decide)),
    if_neg (by rintro (rfl | rfl) <;> exact hv (by decide)),
    if_neg (by rintro (rfl | rfl) <;> exact hv (by decide)),
    if_neg (by rintro (rfl | rfl) <;> exact hv (by decide)),
    if_neg (by rintro (rfl | rfl) <;> exact hv (by decide)),
    if_neg (by rintro (rfl | rfl) <;> exact hv (by decide)),
    if_neg (by rintro (rfl | rfl) <;> exact hv (by decide)),
    if_neg (by rintro (rfl | rfl) <;> exact hv (by decide)),
    if_neg (by rintro (rfl | rfl) <;> exact hv (by decide)),
    if_neg (by rintro (rfl | rfl) <;> exact hv (by decide)),
    if_neg (by rintro (rfl | rfl) <;> exact hv (by decide)),
    if_neg (by rintro (rfl | rfl) <;> exact hv (by decide)),
    if_neg (by rintro (rfl | rfl) <;> exact hv (by decide)),
    if_neg (by rintro (rfl | rfl) <;> exact hv (by decide)),
    if_neg (by rintro (rfl | rfl) <;> exact hv (by decide)),
    if_neg (by rintro (rfl | rfl | rfl | rfl | rfl | rfl) <;> exact hc (by decide))]

/-- Case insensitivity of the reverse table over the ASCII range, stated on
code points so that it can be checked by evaluation. -/
theorem crm_lower_ofNat : ∀ n, n < 128 →
    CROCKFORD_REVERSE_MAPPING (Char.ofNat n)
      = CROCKFORD_REVERSE_MAPPING (Char.ofNat n).toLower := by
  decide

/-- C10. Crockford parse character classification: check-digit characters
are rejected with `UnsupportedCheckDigit`, non-ASCII characters and ASCII
characters outside the digit, alias and check-digit sets are rejected with
`InvalidDigit`, lookup is case-insensitive on ASCII, and the O/I/L aliases
parse to 0 and 1. -/
theorem c10_crockford_char_classification (c : Char) :
    (c ∈ crockfordCheckChars → from_str [c] = .Err (.UnsupportedCheckDigit c)) ∧
    (char_is_ascii c = false → from_str [c] = .Err (.InvalidDigit c)) ∧
    (c ∉ crockfordValidChars → c ∉ crockfordCheckChars →
      from_str [c] = .Err (.InvalidDigit c)) ∧
    (char_is_ascii c = true →
      CROCKFORD_REVERSE_MAPPING c = CROCKFORD_REVERSE_MAPPING c.toLower) ∧
    (from_str ['O'] = .Ok 0 ∧ from_str ['o'] = .Ok 0 ∧ from_str ['0'] = .Ok 0 ∧
      from_str ['I'] = .Ok 1 ∧ from_str ['i'] = .Ok 1 ∧ from_str ['L'] = .Ok 1 ∧
      from_str ['l'] = .Ok 1 ∧ from_str ['1'] = .Ok 1) := by
  refine ⟨?_, ?_, ?_, ?_, by decide⟩
  · intro h
    fin_cases h <;> decide
  · intro h
    simp [from_str, from_str_loop, h]
  · intro hv hc
    by_cases hA : char_is_ascii c = true
    · simp [from_str, from_str_loop, hA, crm_invalid_of_not_mem hv hc]
    · simp [from_str, from_str_loop, hA]
  · intro h
    have hn : c.toNat < 128 := by
      have : c.toNat ≤ 127 := by simpa [char_is_ascii] using h
      omega
    have h2 := crm_lower_ofNat c.toNat hn
    rwa [Char.ofNat_toNat] at h2

/-- Witness for C10: a check digit, a plain invalid ASCII character, a
non-ASCII character, and one case-insensitive pair. -/
theorem c10_crockford_char_classification_witness :
    from_str ['*'] = .Err (.UnsupportedCheckDigit '*') ∧
    from_str ['/'] = .Err (.InvalidDigit '/') ∧
    from_str ['\u0105'] = .Err (.InvalidDigit '\u0105') ∧
    CROCKFORD_REVERSE_MAPPING 'A' = CROCKFORD_REVERSE_MAPPING 'a' :=
  ⟨(c10_crockford_char_classification '*').1 (by decide),
   (c10_crockford_char_classification '/').2.2.1 (by decide) (by decide),
   (c10_crockford_char_classification '\u0105').2.1 (by decide),
   (c10_crockford_char_classification 'A').2.2.2.1 (by decide)⟩

end Cb32u128

namespace Cuid2

/-- Error type of the Cuid2 parser (`Cuid2ParseError` in the source). -/
inductive ParseError where
  | WrongLength
  | IllegalCharacter
  deriving DecidableEq, Repr

/-- Rust `char::to_digit(radix)`: ASCII digits 0 to 9, then letters (either
case) from 10, accepted when the value is below the radix. Stated on code
points (48 is the code of the zero digit, 97 lowercase a, 65 uppercase A). -/
def to_digit (c : Char) (radix : Nat) : Option Nat :=
  match
    (if 48 ≤ c.toNat ∧ c.toNat ≤ 57 then some (c.toNat - 48)
     else if 97 ≤ c.toNat ∧ c.toNat ≤ 122 then some (c.toNat - 97 + 10)
     else if 65 ≤ c.toNat ∧ c.toNat ≤ 90 then some (c.toNat - 65 + 10)
     else none) with
  | some d => if d < radix then some d else none
  | none => none

/-- Digit loop of Rust `u128::from_str_radix`: checked multiply and add,
failing on a non-digit character or on overflow past `2 ^ 128`. -/
def from_str_radix_loop (radix : Nat) : List Char → Nat → Option Nat
  | [], acc => some acc
  | c :: cs, acc =>
    match to_digit c radix with
    | none => none
    | some d =>
      if acc * radix + d < 2 ^ 128 then from_str_radix_loop radix cs (acc * radix + d)
      else none

/-- Rust `u128::from_str_radix`: empty input fails, a lone sign fails, a
leading plus sign is skipped, anything else (including a leading minus
sign, invalid on the unsigned type) goes to the digit loop whole. All
error kinds collapse to `none`. -/
def from_str_radix (radix : Nat) (l : List Char) : Option Nat :=
  match l with
  | [] => none
  | c :: rest =>
    if (c = '+' ∨ c = '-') ∧ rest = [] then none
    else if c = '+' then from_str_radix_loop radix rest 0
    else from_str_radix_loop radix (c :: rest) 0

/-- UTF-8 encoded size in bytes of one scalar value. -/
def charUtf8Size (c : Char) : Nat :=
  if c.toNat < 0x80 then 1
  else if c.toNat < 0x800 then 2
  else if c.toNat < 0x10000 then 3
  else 4

/-- Rust `str::len`: length in UTF-8 bytes, not characters. -/
def utf8Len (l : List Char) : Nat := (l.map charUtf8Size).sum

/-- Cuid2 parser (`FromStr for Cuid2`): the byte length must be exactly 24,
then the value is parsed in radix 36; any radix-parse failure maps to
`IllegalCharacter`. -/
def from_str (l : List Char) : Result Nat ParseError :=
  if utf8Len l ≠ 24 then .Err .WrongLength
  else
    match from_str_radix 36 l with
    | some n => .Ok n
    | none => .Err .IllegalCharacter

/-- Digit characters of the base-36 rendering (crate radix_fmt): 0 to 9
then lowercase letters. -/
def digitChar36 (d : Nat) : Char :=
  if d < 10 then Char.ofNat (48 + d) else Char.ofNat (97 + (d - 10))

/-- The rendering loop of `radix_36` (crate radix_fmt), as used by the
`Display` impl for `Cuid2`: repeated division, most significant digit
first, no padding. Structured with fuel so the kernel can evaluate it; 128
levels are ample for 128-bit values. -/
def displayLoop : Nat → Nat → List Char
  | 0, _ => []
  | fuel + 1, v =>
    if v < 36 then [digitChar36 v]
    else displayLoop fuel (v / 36) ++ [digitChar36 (v % 36)]

/-- The `Display` impl for `Cuid2`: `radix_36` of the stored value. -/
def display (v : Nat) : List Char := displayLoop 128 v

/-! ### Properties of the rendering -/

theorem to_digit_digitChar36 : ∀ d, d < 36 → to_digit (digitChar36 d) 36 = some d := by
  decide

theorem digitChar36_ne_zero : ∀ d, d < 36 → 1 ≤ d → digitChar36 d ≠ '0' := by
  decide

theorem digitChar36_range :
    ∀ d, d < 36 →
      (48 ≤ (digitChar36 d).toNat ∧ (digitChar36 d).toNat ≤ 57) ∨
        (97 ≤ (digitChar36 d).toNat ∧ (digitChar36 d).toNat ≤ 122) := by
  decide

theorem displayLoop_ne_nil (fuel v : Nat) : displayLoop (fuel + 1) v ≠ [] := by
  rw [displayLoop]
  by_cases h : v < 36
  · simp [h]
  · simp [h]

theorem displayLoop_mem :
    ∀ fuel v, v < 36 ^ fuel → ∀ c ∈ displayLoop fuel v, ∃ d, d < 36 ∧ c = digitChar36 d := by
  intro fuel
  induction fuel with
  | zero =>
    intro v hv
    have : v = 0 := by omega
    subst this
    simp [displayLoop]
  | succ f ih =>
    intro v hv c hc
    rw [displayLoop] at hc
    by_cases h36 : v < 36
    · rw [if_pos h36] at hc
      simp only [List.mem_singleton] at hc
      exact ⟨v, h36, hc⟩
    · rw [if_neg h36] at hc
      rcases List.mem_append.1 hc with h | h
      · have hdiv : v / 36 < 36 ^ f := by
          have hp : (36 : Nat) ^ (f + 1) = 36 * 36 ^ f := by rw [Nat.pow_succ]; ring
          omega
        exact ih (v / 36) hdiv c h
      · simp only [List.mem_singleton] at h
        exact ⟨v % 36, Nat.mod_lt v (by norm_num), h⟩

theorem displayLoop_fold :
    ∀ fuel v, v < 36 ^ fuel →
      (displayLoop fuel v).foldl (fun a c => a * 36 + (to_digit c 36).getD 0) 0 = v := by
  intro fuel
  induction fuel with
  | zero =>
    intro v hv
    have : v = 0 := by omega
    subst this
    simp [displayLoop]
  | succ f ih =>
    intro v hv
    rw [displayLoop]
    by_cases h36 : v < 36
    · rw [if_pos h36]
      simp [to_digit_digitChar36 v h36]
    · rw [if_neg h36]
      have hdiv : v / 36 < 36 ^ f := by
        have hp : (36 : Nat) ^ (f + 1) = 36 * 36 ^ f := by rw [Nat.pow_succ]; ring
        omega
      rw [List.foldl_append, ih (v / 36) hdiv]
      simp only [List.foldl_cons, List.foldl_nil,
        to_digit_digitChar36 (v % 36) (Nat.mod_lt v (by norm_num)), Option.getD_some]
      omega

theorem displayLoop_len :
    ∀ fuel v, v < 36 ^ fuel → 1 ≤ fuel →
      1 ≤ (displayLoop fuel v).length ∧ v < 36 ^ (displayLoop fuel v).length ∧
        ((displayLoop fuel v).length = 1 ∨ 36 ^ ((displayLoop fuel v).length - 1) ≤ v) := by
  intro fuel
  induction fuel with
  | zero => omega
  | succ f ih =>
    intro v hv _
    rw [displayLoop]
    by_cases h36 : v < 36
    · rw [if_pos h36]
      refine ⟨by simp, by simpa using h36, Or.inl (by simp)⟩
    · rw [if_neg h36]
      have hp : (36 : Nat) ^ (f + 1) = 36 * 36 ^ f := by rw [Nat.pow_succ]; ring
      have hdiv : v / 36 < 36 ^ f := by omega
      have hf1 : 1 ≤ f := by
        rcases Nat.eq_zero_or_pos f with h | h
        · subst h
          simp at hdiv
          omega
        · exact h
      obtain ⟨h1, h2, h3⟩ := ih (v / 36) hdiv hf1
      set k := (displayLoop f (v / 36)).length with hk
      have hlen : ((displayLoop f (v / 36)) ++ [digitChar36 (v % 36)]).length = k + 1 := by
        simp [hk]
      rw [hlen]
      refine ⟨by omega, ?_, ?_⟩
      · have hq : (36 : Nat) ^ (k + 1) = 36 * 36 ^ k := by rw [Nat.pow_succ]; ring
        omega
      · right
        simp only [Nat.add_sub_cancel]
        rcases h3 with h | h
        · rw [h, pow_one]
          omega
        · have hq : (36 : Nat) ^ k = 36 * 36 ^ (k - 1) := by
            conv_lhs => rw [show k = (k - 1) + 1 by omega]
            rw [Nat.pow_succ]
            ring
          omega

theorem displayLoop_head :
    ∀ fuel v, v < 36 ^ fuel → v ≠ 0 →
      ∀ c, (displayLoop fuel v).head? = some c → c ≠ '0' := by
  intro fuel
  induction fuel with
  | zero => omega
  | succ f ih =>
    intro v hv hv0 c hc
    rw [displayLoop] at hc
    by_cases h36 : v < 36
    · rw [if_pos h36] at hc
      simp only [List.head?_cons, Option.some_inj] at hc
      subst hc
      exact digitChar36_ne_zero v h36 (by omega)
    · rw [if_neg h36] at hc
      have hp : (36 : Nat) ^ (f + 1) = 36 * 36 ^ f := by rw [Nat.pow_succ]; ring
      have hdiv : v / 36 < 36 ^ f := by omega
      have hf1 : ∃ f2, f = f2 + 1 := by
        rcases Nat.eq_zero_or_pos f with h | h
        · subst h
          simp at hdiv
          omega
        · exact ⟨f - 1, by omega⟩
      obtain ⟨f2, rfl⟩ := hf1
      rcases hxs : displayLoop (f2 + 1) (v / 36) with _ | ⟨x, xs⟩
      · exact absurd hxs (displayLoop_ne_nil f2 (v / 36))
      · rw [hxs] at hc
        simp only [List.cons_append, List.head?_cons, Option.some_inj] at hc
        subst hc
        exact ih (v / 36) hdiv (by omega) x (by rw [hxs]; rfl)

/-! ### Claim C2: the render contract -/

/-- C2 counterexample: the all-zero 24-character string parses to the
stored value 0, but that value renders as the single character 0 rather
than as a 24-character left-padded string. -/
theorem c2_cuid2_render_counterexample :
    from_str ['0', '0', '0', '0', '0', '0', '0', '0', '0', '0', '0', '0',
      '0', '0', '0', '0', '0', '0', '0', '0', '0', '0', '0', '0'] = .Ok 0 ∧
    display 0 = ['0'] ∧ (display 0).length = 1 := by decide

/-- C2 amended: the rendered form is the unpadded lowercase base-36
representation of the stored value: every character is a digit 0-9 or a
lowercase letter, folding the digits back gives the value, there is no
leading zero except for the value 0, and for every parse-reachable stored
value (below 36 to the 24) the length is between 1 and 24, reaching 24
exactly when the value is at least 36 to the 23. -/
theorem c2_cuid2_render_amended (v : Nat) (hv : v < 36 ^ 24) :
    (∀ c ∈ display v,
      (48 ≤ c.toNat ∧ c.toNat ≤ 57) ∨ (97 ≤ c.toNat ∧ c.toNat ≤ 122)) ∧
    (display v).foldl (fun a c => a * 36 + (to_digit c 36).getD 0) 0 = v ∧
    (v ≠ 0 → ∀ c, (display v).head? = some c → c ≠ '0') ∧
    1 ≤ (display v).length ∧ (display v).length ≤ 24 ∧
    ((display v).length = 24 ↔ 36 ^ 23 ≤ v) := by
  have h128 : v < 36 ^ 128 :=
    lt_of_lt_of_le hv (Nat.pow_le_pow_right (by norm_num) (by norm_num))
  obtain ⟨h1, h2, h3⟩ := displayLoop_len 128 v h128 (by norm_num)
  simp only [display]
  have hlen24 : (displayLoop 128 v).length ≤ 24 := by
    by_contra hcon
    push_neg at hcon
    rcases h3 with h | h
    · omega
    · have hmono : (36 : Nat) ^ 24 ≤ 36 ^ ((displayLoop 128 v).length - 1) :=
        Nat.pow_le_pow_right (by norm_num) (by omega)
      omega
  refine ⟨?_, displayLoop_fold 128 v h128, ?_, h1, hlen24, ?_⟩
  · intro c hc
    obtain ⟨d, hd, rfl⟩ := displayLoop_mem 128 v h128 c hc
    exact digitChar36_range d hd
  · intro hv0 c hc
    exact displayLoop_head 128 v h128 hv0 c hc
  · constructor
    · intro hlen
      rcases h3 with h | h
      · omega
      · rw [hlen] at h
        norm_num at h
        exact h
    · intro hge
      have h23 : (36 : Nat) ^ 23 < 36 ^ (displayLoop 128 v).length := lt_of_le_of_lt hge h2
      have hgt : 23 < (displayLoop 128 v).length := by
        by_contra hcon
        push_neg at hcon
        have : (36 : Nat) ^ (displayLoop 128 v).length ≤ 36 ^ 23 :=
          Nat.pow_le_pow_right (by norm_num) hcon
        omega
      omega

/-- Witness for the amended C2 at the concrete value 42 (rendered 16). -/
theorem c2_cuid2_render_amended_witness :
    (42 : Nat) < 36 ^ 24 ∧
    (display 42).foldl (fun a c => a * 36 + (to_digit c 36).getD 0) 0 = 42 ∧
    (display 42).length ≤ 24 :=
  ⟨by decide, (c2_cuid2_render_amended 42 (by decide)).2.1,
    (c2_cuid2_render_amended 42 (by decide)).2.2.2.2.1⟩

/-! ### Claim C4: the parse contract -/

/-- Characters accepted as base-36 digits (0-9, a-z, A-Z). -/
def isBase36 (c : Char) : Bool := (to_digit c 36).isSome

theorem to_digit_lt {c : Char} {r d : Nat} (h : to_digit c r = some d) : d < r := by
  rw [to_digit] at h
  split at h
  · split at h
    · simp_all
    · simp_all
  · simp_all

theorem to_digit_ascii {c : Char} (h : (to_digit c 36).isSome = true) :
    c.toNat ≤ 122 := by
  rw [to_digit] at h
  split at h
  · rename_i d heq
    split_ifs at heq with h1 h2 h3 <;> omega
  · simp at h

theorem charUtf8Size_base36 {c : Char} (h : (to_digit c 36).isSome = true) :
    charUtf8Size c = 1 := by
  have := to_digit_ascii h
  rw [charUtf8Size, if_pos (by omega)]

theorem utf8Len_cons (c : Char) (cs : List Char) :
    utf8Len (c :: cs) = charUtf8Size c + utf8Len cs := by
  simp [utf8Len]

theorem utf8Len_of_base36 :
    ∀ l : List Char, (∀ c ∈ l, isBase36 c = true) → utf8Len l = l.length := by
  intro l
  induction l with
  | nil => intro _; rfl
  | cons c cs ih =>
    intro hall
    rw [utf8Len_cons, charUtf8Size_base36 (hall c (List.mem_cons_self c cs)),
      ih (fun e he => hall e (List.mem_cons_of_mem _ he)), List.length_cons]
    omega

theorem radix_loop_all_of_some :
    ∀ (l : List Char) (acc n : Nat), from_str_radix_loop 36 l acc = some n →
      ∀ c ∈ l, isBase36 c = true := by
  intro l
  induction l with
  | nil => simp
  | cons c cs ih =>
    intro acc n h e he
    rw [from_str_radix_loop] at h
    rcases hd : to_digit c 36 with _ | d
    · rw [hd] at h
      simp at h
    · rw [hd] at h
      rcases List.mem_cons.1 he with rfl | hmem
      · rw [isBase36, hd]
        rfl
      · revert h
        show (if acc * 36 + d < 2 ^ 128 then from_str_radix_loop 36 cs (acc * 36 + d)
          else none) = some n → _
        intro h
        split at h
        · exact ih _ n h e hmem
        · simp at h

theorem radix_loop_some :
    ∀ (l : List Char) (acc : Nat), (∀ c ∈ l, isBase36 c = true) →
      (acc + 1) * 36 ^ l.length ≤ 2 ^ 128 →
      from_str_radix_loop 36 l acc
        = some (l.foldl (fun a c => a * 36 + (to_digit c 36).getD 0) acc) := by
  intro l
  induction l with
  | nil =>
    intro acc _ _
    simp [from_str_radix_loop]
  | cons c cs ih =>
    intro acc hall hbound
    obtain ⟨d, hd⟩ :=
      Option.isSome_iff_exists.mp (hall c (List.mem_cons_self c cs))
    have hd36 : d < 36 := to_digit_lt hd
    have hstep : (acc * 36 + d + 1) * 36 ^ cs.length ≤ 2 ^ 128 := by
      have h1 : acc * 36 + d + 1 ≤ (acc + 1) * 36 := by omega
      calc (acc * 36 + d + 1) * 36 ^ cs.length
          ≤ (acc + 1) * 36 * 36 ^ cs.length := Nat.mul_le_mul_right _ h1
        _ = (acc + 1) * 36 ^ (cs.length + 1) := by rw [Nat.pow_succ]; ring
        _ ≤ 2 ^ 128 := by simpa using hbound
    have hlt : acc * 36 + d < 2 ^ 128 := by
      have hpos : 0 < (36 : Nat) ^ cs.length := pow_pos (by norm_num) _
      have := Nat.le_mul_of_pos_right (acc * 36 + d + 1) hpos
      omega
    rw [from_str_radix_loop, hd]
    show (if acc * 36 + d < 2 ^ 128 then from_str_radix_loop 36 cs (acc * 36 + d)
      else none) = _
    rw [if_pos hlt, ih (acc * 36 + d) (fun e he => hall e (List.mem_cons_of_mem _ he)) hstep]
    simp [hd]

/-- A successful radix-36 parse forces the accepted shape: all characters
are base-36 digits, or a leading plus sign followed by base-36 digits; in
both cases every character is one byte, so the byte length equals the
character count. -/
theorem shape_of_radix_some {l : List Char} {n : Nat}
    (hr : from_str_radix 36 l = some n) (h24 : utf8Len l = 24) :
    l.length = 24 ∧ ((∀ c ∈ l, isBase36 c = true) ∨
      (l.head? = some '+' ∧ ∀ c ∈ l.tail, isBase36 c = true)) := by
  rcases l with _ | ⟨c, rest⟩
  · simp [from_str_radix] at hr
  · rw [from_str_radix] at hr
    by_cases hsign : (c = '+' ∨ c = '-') ∧ rest = []
    · rw [if_pos hsign] at hr
      simp at hr
    · rw [if_neg hsign] at hr
      by_cases hplus : c = '+'
      · rw [if_pos hplus] at hr
        have hall := radix_loop_all_of_some rest 0 n hr
        subst hplus
        have hulen : utf8Len ('+' :: rest) = rest.length + 1 := by
          rw [utf8Len_cons, show charUtf8Size '+' = 1 from rfl,
            utf8Len_of_base36 rest hall]
          omega
        refine ⟨by simp only [List.length_cons]; omega, Or.inr ⟨rfl, ?_⟩⟩
        simpa using hall
      · rw [if_neg hplus] at hr
        have hall := radix_loop_all_of_some (c :: rest) 0 n hr
        exact ⟨by rw [← utf8Len_of_base36 _ hall]; exact h24, Or.inl hall⟩

/-- Conversely, a 24-character input of the accepted shape parses in radix
36 (no overflow is possible at this length). -/
theorem radix_some_of_shape {l : List Char} (hlen : l.length = 24)
    (hshape : (∀ c ∈ l, isBase36 c = true) ∨
      (l.head? = some '+' ∧ ∀ c ∈ l.tail, isBase36 c = true)) :
    ∃ m, from_str_radix 36 l = some m := by
  rcases l with _ | ⟨c, rest⟩
  · simp at hlen
  · rcases hshape with hall | ⟨hplus, htail⟩
    · have hcb : isBase36 c = true := hall c (List.mem_cons_self c rest)
      have hcp : c ≠ '+' := by
        rintro rfl
        exact absurd hcb (by decide)
      have hcm : c ≠ '-' := by
        rintro rfl
        exact absurd hcb (by decide)
      rw [from_str_radix,
        if_neg (by rintro ⟨h1 | h1, _⟩; exact hcp h1; exact hcm h1), if_neg hcp]
      refine ⟨_, radix_loop_some (c :: rest) 0 hall ?_⟩
      rw [hlen]
      norm_num
    · have hc : c = '+' := by simpa using hplus
      subst hc
      have hne : ¬((('+' : Char) = '+' ∨ ('+' : Char) = '-') ∧ rest = []) := by
        rintro ⟨_, hrest⟩
        subst hrest
        simp at hlen
      rw [from_str_radix, if_neg hne, if_pos rfl]
      refine ⟨_, radix_loop_some rest 0 (by simpa using htail) ?_⟩
      have h23 : rest.length = 23 := by
        simp only [List.length_cons] at hlen
        omega
      rw [h23]
      norm_num

/-- C4 counterexample: a 24-character string starting with a plus sign and
followed by 23 base-36 digits is accepted by the parser, although the plus
sign is not a base-36 digit (the underlying integer parser skips it); so
acceptance is not equivalent to all 24 characters being base-36. -/
theorem c4_cuid2_parse_counterexample :
    from_str ['+', '0', '0', '0', '0', '0', '0', '0', '0', '0', '0', '0',
      '0', '0', '0', '0', '0', '0', '0', '0', '0', '0', '0', '0'] = .Ok 0 ∧
    isBase36 '+' = false ∧
    (['+', '0', '0', '0', '0', '0', '0', '0', '0', '0', '0', '0',
      '0', '0', '0', '0', '0', '0', '0', '0', '0', '0', '0', '0'] : List Char).length
      = 24 := by decide

/-- C4 amended: parsing succeeds exactly on inputs of 24 characters that
are all base-36 digits or a plus sign followed by 23 base-36 digits;
`WrongLength` is returned exactly when the UTF-8 byte length differs from
24, and `IllegalCharacter` exactly when the byte length is 24 but the
content is not of the accepted shape. -/
theorem c4_cuid2_parse_amended (l : List Char) :
    ((∃ n, from_str l = .Ok n) ↔
      l.length = 24 ∧
        ((∀ c ∈ l, isBase36 c = true) ∨
          (l.head? = some '+' ∧ ∀ c ∈ l.tail, isBase36 c = true))) ∧
    (from_str l = .Err .WrongLength ↔ utf8Len l ≠ 24) ∧
    (from_str l = .Err .IllegalCharacter ↔
      utf8Len l = 24 ∧
        ¬(l.length = 24 ∧
          ((∀ c ∈ l, isBase36 c = true) ∨
            (l.head? = some '+' ∧ ∀ c ∈ l.tail, isBase36 c = true)))) := by
  by_cases h24 : utf8Len l = 24
  case neg =>
    have hfs : from_str l = .Err .WrongLength := by
      rw [from_str, if_pos h24]
    refine ⟨⟨?_, ?_⟩, ⟨fun _ => h24, fun _ => hfs⟩, ⟨?_, ?_⟩⟩
    · rintro ⟨n, hn⟩
      rw [hfs] at hn
      simp at hn
    · rintro ⟨hlen, hshape⟩
      exfalso
      apply h24
      rcases hshape with hall | ⟨hplus, htail⟩
      · rw [utf8Len_of_base36 l hall, hlen]
      · rcases l with _ | ⟨c, rest⟩
        · simp at hplus
        · have hc : c = '+' := by simpa using hplus
          subst hc
          rw [utf8Len_cons, show charUtf8Size '+' = 1 from rfl,
            utf8Len_of_base36 rest (by simpa using htail)]
          simp only [List.length_cons] at hlen
          omega
    · intro hI
      rw [hfs] at hI
      simp at hI
    · rintro ⟨h, _⟩
      exact absurd h h24
  case pos =>
    have hnot : ¬ utf8Len l ≠ 24 := fun h => h h24
    rcases hr : from_str_radix 36 l with _ | n
    · have hfs : from_str l = .Err .IllegalCharacter := by
        rw [from_str, if_neg hnot, hr]
      refine ⟨⟨?_, ?_⟩, ⟨?_, ?_⟩, ⟨?_, fun _ => hfs⟩⟩
      · rintro ⟨n, hn⟩
        rw [hfs] at hn
        simp at hn
      · rintro ⟨hlen, hshape⟩
        obtain ⟨m, hm⟩ := radix_some_of_shape hlen hshape
        rw [hr] at hm
        simp at hm
      · intro h'
        rw [hfs] at h'
        simp at h'
      · intro h'
        exact absurd h24 h'
      · intro _
        refine ⟨h24, ?_⟩
        rintro ⟨hlen, hshape⟩
        obtain ⟨m, hm⟩ := radix_some_of_shape hlen hshape
        rw [hr] at hm
        simp at hm
    · have hfs : from_str l = .Ok n := by
        rw [from_str, if_neg hnot, hr]
      refine ⟨⟨fun _ => shape_of_radix_some hr h24, fun _ => ⟨n, hfs⟩⟩,
        ⟨?_, ?_⟩, ⟨?_, ?_⟩⟩
      · intro h'
        rw [hfs] at h'
        simp at h'
      · intro h'
        exact absurd h24 h'
      · intro h'
        rw [hfs] at h'
        simp at h'
      · rintro ⟨_, hns⟩
        exact absurd (shape_of_radix_some hr h24) hns

end Cuid2

/-! ## The prefixed identifier wrapper (`lib.rs`) -/

/-- The generic prefixed identifier: stores only the body (the prefix tag
is a phantom type parameter in the source, modelled here as a value index
`P`, the decoded tag string). -/
structure PrefixedId (P : List Char) (T : Type) where
  val : T
  deriving DecidableEq, Repr

/-- Error type `PrefixedIdParseError` of the required-prefix parser. -/
inductive PrefixedIdParseError (ε : Type) where
  | NoPrefix (p : List Char)
  | NoUnderscore
  | Other (e : ε)
  deriving DecidableEq, Repr

/-- Rust `str::strip_prefix`: remove the pattern from the front when it is
a prefix of the string, returning the remainder. -/
def strip_pfx (p s : List Char) : Option (List Char) :=
  if p.isPrefixOf s then some (s.drop p.length) else none

namespace PrefixedId

/-- Rust `PrefixedId::from_str_required_prefix`, generic over the body
parser (the `T: FromStr` bound): strip the prefix (else `NoPrefix`), strip
the underscore (else `NoUnderscore`), parse the rest (errors wrapped in
`Other`). -/
def from_str_required_pfx {T ε : Type} (P : List Char)
    (parse : List Char → Result T ε) (s : List Char) :
    Result (PrefixedId P T) (PrefixedIdParseError ε) :=
  match strip_pfx P s with
  | none => .Err (.NoPrefix P)
  | some s1 =>
    match strip_pfx ['_'] s1 with
    | none => .Err .NoUnderscore
    | some s2 =>
      match parse s2 with
      | .Err e => .Err (.Other e)
      | .Ok t => .Ok ⟨t⟩

/-- Rust `PrefixedId::from_str_optional_prefix`: strip the prefix when
present, then the underscore when present, and parse the remainder; only
body errors are returned. -/
def from_str_optional_pfx {T ε : Type} (P : List Char)
    (parse : List Char → Result T ε) (s : List Char) :
    Result (PrefixedId P T) ε :=
  let s1 := (strip_pfx P s).getD s
  let s2 := (strip_pfx ['_'] s1).getD s1
  match parse s2 with
  | .Err e => .Err e
  | .Ok t => .Ok ⟨t⟩

/-- Rust `PrefixedId::from_id`. -/
def from_id {T : Type} (P : List Char) (t : T) : PrefixedId P T := ⟨t⟩

/-- The `Display` impl for `PrefixedId`: prefix, underscore, body. -/
def display {T : Type} (P : List Char) (render : T → List Char)
    (x : PrefixedId P T) : List Char := P ++ '_' :: render x.val

/-! ### Facts about prefix stripping -/

theorem strip_pfx_none {p s : List Char} (h : ¬ p <+: s) : strip_pfx p s = none := by
  rw [strip_pfx, if_neg]
  simpa [List.isPrefixOf_iff_prefix] using h

theorem strip_pfx_some {p s : List Char} (h : p <+: s) :
    strip_pfx p s = some (s.drop p.length) := by
  rw [strip_pfx, if_pos]
  simpa [List.isPrefixOf_iff_prefix] using h

theorem strip_pfx_append (p t : List Char) : strip_pfx p (p ++ t) = some t := by
  rw [strip_pfx_some (List.prefix_append p t), List.drop_left]

theorem strip_pfx_cons_underscore (t : List Char) :
    strip_pfx ['_'] ('_' :: t) = some t := strip_pfx_append ['_'] t

theorem strip_underscore (s : List Char) :
    strip_pfx ['_'] s = if s.head? = some '_' then some s.tail else none := by
  rcases s with _ | ⟨c, cs⟩
  · simp [strip_pfx, List.isPrefixOf]
  · by_cases hc : c = '_'
    · subst hc
      rw [if_pos (show ('_' :: cs : List Char).head? = some '_' from rfl)]
      exact strip_pfx_cons_underscore cs
    · rw [if_neg (by simp [hc])]
      apply strip_pfx_none
      rintro ⟨t, ht⟩
      simp at ht
      exact hc ht.1.symm

/-! ### Claim C5: the optional-prefix parser -/

/-- C5 counterexample: with prefix 1 and the Crockford body codec, the body
string 10 (which the body parser accepts with value 32) is accepted by
`from_str_optional_prefix` both bare and prefixed, but the two parses give
different values: the bare parse strips the leading 1 as a prefix. -/
theorem c5_optional_pfx_counterexample :
    from_str_optional_pfx ['1'] Cb32u128.from_str ['1', '_', '1', '0']
      = .Ok (from_id ['1'] 32) ∧
    from_str_optional_pfx ['1'] Cb32u128.from_str ['1', '0']
      = .Ok (from_id ['1'] 0) ∧
    Cb32u128.from_str ['1', '0'] = .Ok 32 ∧ (32 : Nat) ≠ 0 := by decide

/-- C5 amended: when the body string neither starts with the prefix nor
with an underscore, the optional parser accepts both the prefixed and the
bare form with the same value; in general its result is always the body
parser's result on the stripped remainder, so only body errors surface. -/
theorem c5_optional_pfx_amended {T ε : Type} (P : List Char)
    (parse : List Char → Result T ε) (xyz : List Char) (b : T)
    (hnp : ¬ P <+: xyz) (hnu : xyz.head? ≠ some '_')
    (hacc : parse xyz = .Ok b) :
    from_str_optional_pfx P parse (P ++ '_' :: xyz) = .Ok (from_id P b) ∧
    from_str_optional_pfx P parse xyz = .Ok (from_id P b) ∧
    (∀ s, ∃ s2, from_str_optional_pfx P parse s
      = match parse s2 with
        | .Err e => .Err e
        | .Ok t => .Ok (from_id P t)) := by
  refine ⟨?_, ?_,
    fun s => ⟨(strip_pfx ['_'] ((strip_pfx P s).getD s)).getD ((strip_pfx P s).getD s),
      rfl⟩⟩
  · simp only [from_str_optional_pfx, strip_pfx_append, Option.getD_some,
      strip_pfx_cons_underscore, hacc]
    rfl
  · simp only [from_str_optional_pfx, strip_pfx_none hnp, Option.getD_none,
      strip_underscore, if_neg hnu, hacc]
    rfl

/-- Witness for the amended C5 with prefix cus, the Crockford body codec
and body string 10. -/
theorem c5_optional_pfx_amended_witness :
    (¬ (['c', 'u', 's'] : List Char) <+: ['1', '0']) ∧
    (['1', '0'] : List Char).head? ≠ some '_' ∧
    Cb32u128.from_str ['1', '0'] = .Ok 32 ∧
    from_str_optional_pfx ['c', 'u', 's'] Cb32u128.from_str
      ['c', 'u', 's', '_', '1', '0'] = .Ok (from_id ['c', 'u', 's'] 32) ∧
    from_str_optional_pfx ['c', 'u', 's'] Cb32u128.from_str ['1', '0']
      = .Ok (from_id ['c', 'u', 's'] 32) :=
  ⟨by decide, by decide, by decide,
    (c5_optional_pfx_amended ['c', 'u', 's'] Cb32u128.from_str ['1', '0'] 32
      (by decide) (by decide) (by decide)).1,
    (c5_optional_pfx_amended ['c', 'u', 's'] Cb32u128.from_str ['1', '0'] 32
      (by decide) (by decide) (by decide)).2.1⟩

/-! ### Claim C6: composition round-trip -/

/-- C6. Rendering a wrapped body gives prefix, underscore, body; and when
the body codec round-trips on the body value, the required-prefix parser
recovers the wrapped value from that rendering. -/
theorem c6_composition_round_trip {T ε : Type} (P : List Char)
    (render : T → List Char) (parse : List Char → Result T ε) (b : T)
    (hrt : parse (render b) = .Ok b) :
    display P render (from_id P b) = P ++ '_' :: render b ∧
    from_str_required_pfx P parse (P ++ '_' :: render b) = .Ok (from_id P b) := by
  refine ⟨rfl, ?_⟩
  simp only [from_str_required_pfx, strip_pfx_append, strip_pfx_cons_underscore, hrt]
  rfl

/-- Witness for C6 with prefix cus, the Crockford codec and body value 992. -/
theorem c6_composition_round_trip_witness :
    Cb32u128.from_str (Cb32u128.fmt 992) = .Ok 992 ∧
    display ['c', 'u', 's'] Cb32u128.fmt (from_id ['c', 'u', 's'] 992)
      = ['c', 'u', 's'] ++ '_' :: Cb32u128.fmt 992 ∧
    from_str_required_pfx ['c', 'u', 's'] Cb32u128.from_str
      (['c', 'u', 's'] ++ '_' :: Cb32u128.fmt 992)
      = .Ok (from_id ['c', 'u', 's'] 992) :=
  ⟨by decide,
    (c6_composition_round_trip ['c', 'u', 's'] Cb32u128.fmt Cb32u128.from_str 992
      (by decide)).1,
    (c6_composition_round_trip ['c', 'u', 's'] Cb32u128.fmt Cb32u128.from_str 992
      (by decide)).2⟩

/-! ### Claim C7: required-prefix error taxonomy -/

/-- C7. The required-prefix parser returns `NoPrefix P` when the input does
not start with the prefix, `NoUnderscore` when it starts with the prefix
but the next character is not an underscore (or is missing), and `Other e`
wrapping the body error when prefix and underscore are present but the
body parser fails on the remainder. -/
theorem c7_required_pfx_errors {T ε : Type} (P : List Char)
    (parse : List Char → Result T ε) (s : List Char) :
    (¬ P <+: s → from_str_required_pfx P parse s = .Err (.NoPrefix P)) ∧
    (P <+: s → (s.drop P.length).head? ≠ some '_' →
      from_str_required_pfx P parse s = .Err .NoUnderscore) ∧
    (∀ e, P <+: s → (s.drop P.length).head? = some '_' →
      parse (s.drop P.length).tail = .Err e →
      from_str_required_pfx P parse s = .Err (.Other e)) := by
  refine ⟨?_, ?_, ?_⟩
  · intro h
    simp only [from_str_required_pfx, strip_pfx_none h]
  · intro hp hu
    simp only [from_str_required_pfx, strip_pfx_some hp, strip_underscore, if_neg hu]
  · intro e hp hu he
    simp only [from_str_required_pfx, strip_pfx_some hp, strip_underscore, if_pos hu, he]

/-- Witness for C7: a missing prefix, a missing underscore, and a wrapped
body error, with prefix cus and the Crockford body codec. -/
theorem c7_required_pfx_errors_witness :
    from_str_required_pfx ['c', 'u', 's'] Cb32u128.from_str ['x', '_', '1']
      = .Err (.NoPrefix ['c', 'u', 's']) ∧
    from_str_required_pfx ['c', 'u', 's'] Cb32u128.from_str ['c', 'u', 's', '1']
      = .Err .NoUnderscore ∧
    from_str_required_pfx ['c', 'u', 's'] Cb32u128.from_str ['c', 'u', 's', '_', '*']
      = .Err (.Other (.UnsupportedCheckDigit '*')) :=
  ⟨(c7_required_pfx_errors ['c', 'u', 's'] Cb32u128.from_str ['x', '_', '1']).1
      (by decide),
   (c7_required_pfx_errors ['c', 'u', 's'] Cb32u128.from_str
      ['c', 'u', 's', '1']).2.1 (by decide) (by decide),
   (c7_required_pfx_errors ['c', 'u', 's'] Cb32u128.from_str
      ['c', 'u', 's', '_', '*']).2.2 (.UnsupportedCheckDigit '*') (by decide)
      (by decide) (by decide)⟩

end PrefixedId

/-! ## The short-prefix tag packing (`encode_bytes` and `decode_bytes` in
`lib.rs`) -/

/-- Little-endian value of a byte list (models `u128::from_ne_bytes`; the
encoder and the decoder in the source use the same native byte order,
fixed here as little-endian, and the round-trip does not depend on the
choice). -/
def fromLEBytes (l : List Nat) : Nat := l.foldr (fun b acc => b + 256 * acc) 0

/-- The first `k` bytes of a value, least significant first (models the
byte view of `&u128` taken in `decode_bytes`). -/
def toLEBytes : Nat → Nat → List Nat
  | 0, _ => []
  | k + 1, n => n % 256 :: toLEBytes k (n / 256)

/-- Continuation byte of a UTF-8 sequence. -/
def utf8Cont (b : Nat) : Bool := decide (0x80 ≤ b ∧ b ≤ 0xBF)

/-- UTF-8 validity of a byte sequence per RFC 3629, as enforced by Rust
`str::from_utf8` inside `decode_bytes` (overlong forms, surrogates and
values beyond U+10FFFF are rejected). -/
def utf8Valid : List Nat → Bool
  | [] => true
  | b :: rest =>
    if b ≤ 0x7F then utf8Valid rest
    else if 0xC2 ≤ b ∧ b ≤ 0xDF then
      match rest with
      | b1 :: r => utf8Cont b1 && utf8Valid r
      | [] => false
    else if b = 0xE0 then
      match rest with
      | b1 :: b2 :: r => decide (0xA0 ≤ b1 ∧ b1 ≤ 0xBF) && utf8Cont b2 && utf8Valid r
      | _ => false
    else if 0xE1 ≤ b ∧ b ≤ 0xEC then
      match rest with
      | b1 :: b2 :: r => utf8Cont b1 && utf8Cont b2 && utf8Valid r
      | _ => false
    else if b = 0xED then
      match rest with
      | b1 :: b2 :: r => decide (0x80 ≤ b1 ∧ b1 ≤ 0x9F) && utf8Cont b2 && utf8Valid r
      | _ => false
    else if 0xEE ≤ b ∧ b ≤ 0xEF then
      match rest with
      | b1 :: b2 :: r => utf8Cont b1 && utf8Cont b2 && utf8Valid r
      | _ => false
    else if b = 0xF0 then
      match rest with
      | b1 :: b2 :: b3 :: r =>
        decide (0x90 ≤ b1 ∧ b1 ≤ 0xBF) && utf8Cont b2 && utf8Cont b3 && utf8Valid r
      | _ => false
    else if 0xF1 ≤ b ∧ b ≤ 0xF3 then
      match rest with
      | b1 :: b2 :: b3 :: r => utf8Cont b1 && utf8Cont b2 && utf8Cont b3 && utf8Valid r
      | _ => false
    else if b = 0xF4 then
      match rest with
      | b1 :: b2 :: b3 :: r =>
        decide (0x80 ≤ b1 ∧ b1 ≤ 0x8F) && utf8Cont b2 && utf8Cont b3 && utf8Valid r
      | _ => false
    else false

/-- Rust `encode_bytes`: assert the byte length is at most 15, then pack
the length byte, the content bytes and zero padding into a 128-bit value
(`none` models the assertion failure on over-long input). -/
def encode_bytes (s : List Nat) : Option Nat :=
  if s.length ≤ 15 then
    some (fromLEBytes (s.length :: (s ++ List.replicate (15 - s.length) 0)))
  else none

/-- Rust `decode_bytes`: view the value as 16 bytes, read the length from
byte 0 (asserting it is at most 15), slice that many content bytes, and
validate UTF-8 (`none` models the assertion or the validation panic). -/
def decode_bytes (n : Nat) : Option (List Nat) :=
  let bytes := toLEBytes 16 n
  let len := bytes.headD 0
  if len ≤ 15 then
    let content := (bytes.drop 1).take len
    if utf8Valid content then some content else none
  else none

theorem toLEBytes_fromLEBytes :
    ∀ l : List Nat, (∀ b ∈ l, b < 256) → toLEBytes l.length (fromLEBytes l) = l := by
  intro l
  induction l with
  | nil => intro _; rfl
  | cons b rest ih =>
    intro hall
    have hb : b < 256 := hall b (List.mem_cons_self b rest)
    rw [List.length_cons, toLEBytes]
    have hfrom : fromLEBytes (b :: rest) = b + 256 * fromLEBytes rest := rfl
    rw [hfrom]
    have hmod : (b + 256 * fromLEBytes rest) % 256 = b := by omega
    have hdiv : (b + 256 * fromLEBytes rest) / 256 = fromLEBytes rest := by omega
    rw [hmod, hdiv, ih (fun e he => hall e (List.mem_cons_of_mem _ he))]

/-- C8. Prefix tag round-trip: every valid UTF-8 byte string of length at
most 15 decodes back exactly from its packed 128-bit value (so the VALUE
constant of the corresponding ShortPrefix instantiation is the original
string), and `encode_bytes` on a longer string fails its assertion instead
of producing a value. -/
theorem c8_tag_round_trip (s : List Nat) (hutf8 : utf8Valid s = true)
    (hbytes : ∀ b ∈ s, b < 256) (hlen : s.length ≤ 15) :
    (encode_bytes s).bind decode_bytes = some s ∧
    (∀ t : List Nat, 15 < t.length → encode_bytes t = none) := by
  constructor
  · rw [encode_bytes, if_pos hlen, Option.some_bind]
    have hLlen : (s.length :: (s ++ List.replicate (15 - s.length) 0)).length = 16 := by
      simp only [List.length_cons, List.length_append, List.length_replicate]
      omega
    have hLbytes : ∀ b ∈ s.length :: (s ++ List.replicate (15 - s.length) 0), b < 256 := by
      intro b hb
      rcases List.mem_cons.1 hb with rfl | hb2
      · omega
      · rcases List.mem_append.1 hb2 with h | h
        · exact hbytes b h
        · have := List.eq_of_mem_replicate h
          omega
    have hround := toLEBytes_fromLEBytes _ hLbytes
    rw [hLlen] at hround
    rw [decode_bytes]
    simp only [hround, List.headD_cons, List.drop_succ_cons, List.drop_zero]
    rw [if_pos hlen, List.take_left' rfl, if_pos hutf8]
  · intro t ht
    rw [encode_bytes, if_neg (by omega)]

/-- Witness for C8 on the three-byte tag cus, plus the assertion failure
on a 16-byte input. -/
theorem c8_tag_round_trip_witness :
    utf8Valid [0x63, 0x75, 0x73] = true ∧
    (encode_bytes [0x63, 0x75, 0x73]).bind decode_bytes = some [0x63, 0x75, 0x73] ∧
    encode_bytes (List.replicate 16 0) = none :=
  ⟨by decide,
   (c8_tag_round_trip [0x63, 0x75, 0x73] (by decide) (by decide) (by decide)).1,
   (c8_tag_round_trip [0x63, 0x75, 0x73] (by decide) (by decide) (by decide)).2
     (List.replicate 16 0) (by decide)⟩

end Humanoid
